import Mathlib

/-!
Shallow embedding of the Sutherland-Hodgman polygon clipper
(`src/src/main.rs`).  The Rust code computes over `f64`; the embedding
uses exact rational arithmetic (`ℚ`), which agrees with the source's
formulas symbol for symbol.  Every definition mirrors one Rust item and
keeps its name.
-/

set_option allowUnsafeReducibility true
attribute [local semireducible] Rat.mul Rat.add Rat.sub Rat.inv

/-- `struct Point { x: f64, y: f64 }` with the derived field-wise equality. -/
structure Point where
  x : ℚ
  y : ℚ
deriving DecidableEq, Repr

/-- `struct Line { start: Point, end: Point }` (a directed segment).
The Rust field `end` is a Lean keyword, rendered here as `end_`. -/
structure Line where
  start : Point
  end_ : Point
deriving DecidableEq, Repr

/-- `Line::cross_product`: signed cross product of the edge vector with the
vector from `start` to `point`. -/
def Line.cross_product (self : Line) (point : Point) : ℚ :=
  let vector_edge := Point.mk (self.end_.x - self.start.x) (self.end_.y - self.start.y)
  let vector_vertex := Point.mk (point.x - self.start.x) (point.y - self.start.y)
  vector_edge.x * vector_vertex.y - vector_edge.y * vector_vertex.x

/-- `Line::is_inside`: the half-plane test `cross_product(point) >= 0.0`. -/
def Line.is_inside (self : Line) (point : Point) : Bool :=
  decide (0 ≤ self.cross_product point)

/-- The determinant `a1*b2 - a2*b1` computed inside `Line::intersection`,
with `a = Δy` and `b = -Δx` for each line. -/
def Line.determinant (self other : Line) : ℚ :=
  (self.end_.y - self.start.y) * (other.start.x - other.end_.x) -
    (other.end_.y - other.start.y) * (self.start.x - self.end_.x)

/-- `Line::intersection`: solve the 2x2 system of the two implicit line
equations; `None` on zero determinant, and the solved point is accepted only
inside both segments' bounding boxes (inclusive). -/
def Line.intersection (self other : Line) : Option Point :=
  let a1 := self.end_.y - self.start.y
  let b1 := self.start.x - self.end_.x
  let c1 := a1 * self.start.x + b1 * self.start.y
  let a2 := other.end_.y - other.start.y
  let b2 := other.start.x - other.end_.x
  let c2 := a2 * other.start.x + b2 * other.start.y
  let determinant := a1 * b2 - a2 * b1
  if determinant = 0 then
    none
  else
    let x := (b2 * c1 - b1 * c2) / determinant
    let y := (a1 * c2 - a2 * c1) / determinant
    if min self.start.x self.end_.x ≤ x ∧ x ≤ max self.start.x self.end_.x ∧
        min self.start.y self.end_.y ≤ y ∧ y ≤ max self.start.y self.end_.y ∧
        min other.start.x other.end_.x ≤ x ∧ x ≤ max other.start.x other.end_.x ∧
        min other.start.y other.end_.y ≤ y ∧ y ≤ max other.start.y other.end_.y then
      some (Point.mk x y)
    else
      none

/-- `struct Polygon { vertexes: Vec<Point> }`. -/
structure Polygon where
  vertexes : List Point
deriving DecidableEq, Repr

/-- `enum PointPosition { Inside(Point), Outside(Point) }`. -/
inductive PointPosition where
  | Inside : Point → PointPosition
  | Outside : Point → PointPosition
deriving DecidableEq, Repr

/-- `PointPosition::is_inside`: classify a point against a clip line. -/
def PointPosition.is_inside (point : Point) (line : Line) : PointPosition :=
  if line.is_inside point then
    PointPosition.Inside point
  else
    PointPosition.Outside point

/-- `struct PointPositions { start: PointPosition, end: PointPosition }`. -/
structure PointPositions where
  start : PointPosition
  end_ : PointPosition

/-- `PointPositions::calculate_intersection`: push the intersection point
when it exists, otherwise contribute nothing. -/
def PointPositions.calculate_intersection (line intersection_line : Line) : List Point :=
  match line.intersection intersection_line with
  | some intersection => [intersection]
  | none => []

/-- `PointPositions::calculate_vertexes`: the Sutherland-Hodgman edge rule. -/
def PointPositions.calculate_vertexes (self : PointPositions) (line : Line) : List Point :=
  match self.start, self.end_ with
  | PointPosition.Inside _, PointPosition.Inside e => [e]
  | PointPosition.Inside s, PointPosition.Outside e =>
      PointPositions.calculate_intersection line (Line.mk s e)
  | PointPosition.Outside s, PointPosition.Inside e =>
      PointPositions.calculate_intersection line (Line.mk s e) ++ [e]
  | PointPosition.Outside _, PointPosition.Outside _ => []

/-- `SutherlandHodgman::remove_duplicated_points`: drop every point equal to
the last point already kept. -/
def SutherlandHodgman.remove_duplicated_points (output_polygon : List Point) : List Point :=
  output_polygon.foldl
    (fun unique_points point =>
      if unique_points.getLast? ≠ some point then unique_points ++ [point] else unique_points)
    []

/-- The default used by total list indexing; the algorithm only indexes in
bounds, so it is never returned. -/
def originPoint : Point := Point.mk 0 0

/-- The `i`-th directed edge of a polygon: vertex `i` to vertex
`(i + 1) % len`, exactly as both loops of `clip_polygon` build lines. -/
def polygonEdge (polygon : Polygon) (i : Nat) : Line :=
  Line.mk (polygon.vertexes.getD i originPoint)
    (polygon.vertexes.getD ((i + 1) % polygon.vertexes.length) originPoint)

/-- The inner loop of `SutherlandHodgman::clip_polygon`: one pass of the
working vertex list against a single clipping line, concatenating the
vertices contributed by each wrapped edge `(j, (j+1) % len)`. -/
def SutherlandHodgman.clip_pass (clipping_line : Line) (output_polygon : List Point) :
    List Point :=
  (List.range output_polygon.length).foldl
    (fun new_vertexes j =>
      let start_point := output_polygon.getD j originPoint
      let end_point := output_polygon.getD ((j + 1) % output_polygon.length) originPoint
      let current_position := PointPosition.is_inside start_point clipping_line
      let next_position := PointPosition.is_inside end_point clipping_line
      new_vertexes ++
        (PointPositions.mk current_position next_position).calculate_vertexes clipping_line)
    []

/-- The outer loop of `SutherlandHodgman::clip_polygon`: fold the passes for
every clip edge over the working list, starting from the input vertices. -/
def SutherlandHodgman.clip_passes (clipping_polygon : Polygon) (input : List Point) :
    List Point :=
  (List.range clipping_polygon.vertexes.length).foldl
    (fun output_polygon i =>
      SutherlandHodgman.clip_pass (polygonEdge clipping_polygon i) output_polygon)
    input

/-- `SutherlandHodgman::clip_polygon` (the `ClippingStrategy` impl):
run all passes, return `none` on an empty working list, otherwise collapse
consecutive duplicates and wrap the result in a `Polygon`. -/
def SutherlandHodgman.clip_polygon (clipping_polygon input_polygon : Polygon) :
    Option Polygon :=
  let output_polygon := SutherlandHodgman.clip_passes clipping_polygon input_polygon.vertexes
  if output_polygon.isEmpty then
    none
  else
    some (Polygon.mk (SutherlandHodgman.remove_duplicated_points output_polygon))

/-- `trait ClippingStrategy`, as a record of its single method. -/
structure ClippingStrategy where
  clip_polygon : Polygon → Polygon → Option Polygon

/-- The `SutherlandHodgman` unit struct viewed through its trait impl. -/
def sutherlandHodgmanStrategy : ClippingStrategy :=
  ClippingStrategy.mk SutherlandHodgman.clip_polygon

/-- `struct PolygonClippingCalculator { strategy: &C }`. -/
structure PolygonClippingCalculator where
  strategy : ClippingStrategy

/-- `PolygonClippingCalculator::clip_polygon`: positional delegation to the
held strategy. -/
def PolygonClippingCalculator.clip_polygon (self : PolygonClippingCalculator)
    (polygon clipping_polygon : Polygon) : Option Polygon :=
  self.strategy.clip_polygon polygon clipping_polygon

/-- The square built in `main`. -/
def mainSquare : Polygon :=
  Polygon.mk [Point.mk 150 150, Point.mk 200 150, Point.mk 200 200, Point.mk 150 200]

/-- The triangle built in `main` (named `clipping_polygon` there). -/
def mainTriangle : Polygon :=
  Polygon.mk [Point.mk 100 150, Point.mk 200 250, Point.mk 300 200]

/-- The point `u` of the way from `s` to `t`; for `u ∈ [0, 1]` this is a
convex combination, used to show intersection points stay in every
half-plane their segment's endpoints are in. -/
def convexComb (u : ℚ) (s t : Point) : Point :=
  Point.mk (s.x + u * (t.x - s.x)) (s.y + u * (t.y - s.y))

/-- Recursive form of the duplicate-removal fold: the accumulator is
abstracted to the last kept point (`none` when nothing is kept yet). -/
def dedupFrom : Option Point → List Point → List Point
  | _, [] => []
  | last, point :: rest =>
      if last ≠ some point then point :: dedupFrom (some point) rest
      else dedupFrom last rest

theorem is_inside_iff (L : Line) (p : Point) :
    L.is_inside p = true ↔ 0 ≤ L.cross_product p := by
  simp [Line.is_inside]

theorem cross_product_convexComb (L : Line) (u : ℚ) (s t : Point) :
    L.cross_product (convexComb u s t) =
      (1 - u) * L.cross_product s + u * L.cross_product t := by
  simp only [Line.cross_product, convexComb]
  ring

/-- The edge rule as one case-split equation; `calculate_vertexes` applied to
the classification of the two endpoints of a segment. -/
theorem calculate_vertexes_cases (L : Line) (s e : Point) :
    (PointPositions.mk (PointPosition.is_inside s L)
        (PointPosition.is_inside e L)).calculate_vertexes L =
      if L.is_inside s then
        if L.is_inside e then [e]
        else
          match L.intersection (Line.mk s e) with
          | some p => [p]
          | none => []
      else
        if L.is_inside e then
          (match L.intersection (Line.mk s e) with
            | some p => [p]
            | none => []) ++ [e]
        else [] := by
  by_cases hs : L.is_inside s <;> by_cases he : L.is_inside e <;>
    simp [PointPosition.is_inside, PointPositions.calculate_vertexes,
      PointPositions.calculate_intersection, hs, he]

theorem remove_duplicated_points_go (l : List Point) : ∀ acc : List Point,
    l.foldl
      (fun unique_points point =>
        if unique_points.getLast? ≠ some point then unique_points ++ [point]
        else unique_points) acc =
      acc ++ dedupFrom acc.getLast? l := by
  induction l with
  | nil => intro acc; simp [dedupFrom]
  | cons p rest ih =>
      intro acc
      rw [List.foldl_cons]
      by_cases h : acc.getLast? = some p
      · rw [if_neg (by simpa using h), ih acc]
        simp [dedupFrom, h]
      · rw [if_pos (by simpa using h), ih (acc ++ [p])]
        simp [dedupFrom, h, List.getLast?_concat]

theorem cons_dedupFrom (l : List Point) : ∀ a : Point,
    a :: dedupFrom (some a) l = List.destutter' (· ≠ ·) a l := by
  induction l with
  | nil => intro a; simp [dedupFrom]
  | cons b rest ih =>
      intro a
      rw [List.destutter'_cons]
      by_cases h : a = b
      · subst h
        rw [if_neg (by simp)]
        simpa [dedupFrom] using ih a
      · rw [if_pos (by simpa using h)]
        simp only [dedupFrom, if_pos (show (some a ≠ some b) by simpa using h)]
        rw [ih b]

theorem remove_duplicated_points_eq_destutter (l : List Point) :
    SutherlandHodgman.remove_duplicated_points l = l.destutter (· ≠ ·) := by
  unfold SutherlandHodgman.remove_duplicated_points
  rw [remove_duplicated_points_go]
  cases l with
  | nil => simp [dedupFrom]
  | cons a rest =>
      simp only [List.getLast?_nil, List.nil_append, List.destutter_cons']
      simp only [dedupFrom, if_pos (by simp : (none : Option Point) ≠ some a)]
      exact cons_dedupFrom rest a

theorem intersection_some_onLines {self other : Line} {p : Point}
    (h : self.intersection other = some p) :
    (self.end_.y - self.start.y) * p.x + (self.start.x - self.end_.x) * p.y =
        (self.end_.y - self.start.y) * self.start.x +
          (self.start.x - self.end_.x) * self.start.y ∧
      (other.end_.y - other.start.y) * p.x + (other.start.x - other.end_.x) * p.y =
        (other.end_.y - other.start.y) * other.start.x +
          (other.start.x - other.end_.x) * other.start.y ∧
      min other.start.x other.end_.x ≤ p.x ∧ p.x ≤ max other.start.x other.end_.x ∧
      min other.start.y other.end_.y ≤ p.y ∧ p.y ≤ max other.start.y other.end_.y ∧
      Line.determinant self other ≠ 0 := by
  simp only [Line.intersection] at h
  split at h
  · exact absurd h (by simp)
  · rename_i hdet
    split at h
    · rename_i hbox
      obtain rfl : Point.mk _ _ = p := by simpa using h
      obtain ⟨x1, x2, y1, y2, ox1, ox2, oy1, oy2⟩ := hbox
      refine ⟨?_, ?_, ox1, ox2, oy1, oy2, ?_⟩
      · field_simp
        ring
      · field_simp
        ring
      · simpa [Line.determinant] using hdet
    · exact absurd h (by simp)

theorem intersection_cross_self {self other : Line} {p : Point}
    (h : self.intersection other = some p) : self.cross_product p = 0 := by
  obtain ⟨h1, -⟩ := intersection_some_onLines h
  simp only [Line.cross_product]
  linear_combination -h1

theorem unit_param_of_bounds {s t v : ℚ} (hne : s ≠ t)
    (h1 : min s t ≤ v) (h2 : v ≤ max s t) :
    0 ≤ (v - s) / (t - s) ∧ (v - s) / (t - s) ≤ 1 := by
  rcases lt_or_gt_of_ne hne with hlt | hlt
  · rw [min_eq_left hlt.le] at h1
    rw [max_eq_right hlt.le] at h2
    have hpos : 0 < t - s := sub_pos.2 hlt
    exact ⟨div_nonneg (by linarith) hpos.le, (div_le_one hpos).2 (by linarith)⟩
  · rw [min_eq_right hlt.le] at h1
    rw [max_eq_left hlt.le] at h2
    have hpos : 0 < s - t := sub_pos.2 hlt
    have heq : (v - s) / (t - s) = (s - v) / (s - t) := by
      rw [← neg_div_neg_eq]
      ring_nf
    rw [heq]
    exact ⟨div_nonneg (by linarith) hpos.le, (div_le_one hpos).2 (by linarith)⟩

theorem intersection_some_convex {self other : Line} {p : Point}
    (h : self.intersection other = some p) :
    ∃ u : ℚ, 0 ≤ u ∧ u ≤ 1 ∧ p = convexComb u other.start other.end_ := by
  obtain ⟨-, honline, hx1, hx2, hy1, hy2, hdet⟩ := intersection_some_onLines h
  by_cases hxx : other.start.x = other.end_.x
  · have hyy : other.start.y ≠ other.end_.y := by
      intro hyy
      apply hdet
      unfold Line.determinant
      rw [hxx, hyy]
      ring
    have hne : other.end_.y - other.start.y ≠ 0 :=
      sub_ne_zero.2 (Ne.symm hyy)
    have hpx : p.x = other.start.x := by
      have h2 : (other.end_.y - other.start.y) * p.x =
          (other.end_.y - other.start.y) * other.start.x := by
        linear_combination honline - p.y * hxx + other.start.y * hxx
      exact mul_left_cancel₀ hne h2
    obtain ⟨hu0, hu1⟩ := unit_param_of_bounds hyy hy1 hy2
    refine ⟨(p.y - other.start.y) / (other.end_.y - other.start.y), hu0, hu1, ?_⟩
    obtain ⟨px, py⟩ := p
    simp only [convexComb, Point.mk.injEq]
    constructor
    · simp only at hpx
      rw [hpx, ← hxx]
      ring
    · field_simp
  · have hne : other.end_.x - other.start.x ≠ 0 :=
      sub_ne_zero.2 (Ne.symm hxx)
    have key : (other.end_.x - other.start.x) * (p.y - other.start.y) =
        (other.end_.y - other.start.y) * (p.x - other.start.x) := by
      linear_combination -honline
    obtain ⟨hu0, hu1⟩ := unit_param_of_bounds hxx hx1 hx2
    refine ⟨(p.x - other.start.x) / (other.end_.x - other.start.x), hu0, hu1, ?_⟩
    obtain ⟨px, py⟩ := p
    simp only [convexComb, Point.mk.injEq]
    constructor
    · field_simp
    · simp only at key ⊢
      field_simp
      linear_combination key

theorem foldl_append_eq_flatMap {α β : Type} (g : α → List β) :
    ∀ (l : List α) (acc : List β),
      l.foldl (fun racc j => racc ++ g j) acc = acc ++ l.flatMap g := by
  intro l
  induction l with
  | nil => intro acc; simp
  | cons j rest ih =>
      intro acc
      rw [List.foldl_cons, ih (acc ++ g j)]
      simp [List.append_assoc]

theorem clip_pass_eq_flatMap (L : Line) (cur : List Point) :
    SutherlandHodgman.clip_pass L cur =
      (List.range cur.length).flatMap (fun j =>
        (PointPositions.mk (PointPosition.is_inside (cur.getD j originPoint) L)
          (PointPosition.is_inside (cur.getD ((j + 1) % cur.length) originPoint) L)
          ).calculate_vertexes L) := by
  simp only [SutherlandHodgman.clip_pass]
  rw [foldl_append_eq_flatMap]
  simp

theorem mem_calculate_vertexes {L : Line} {s e v : Point}
    (hv : v ∈ (PointPositions.mk (PointPosition.is_inside s L)
      (PointPosition.is_inside e L)).calculate_vertexes L) :
    L.is_inside v = true ∧ (v = e ∨ L.intersection (Line.mk s e) = some v) := by
  rw [calculate_vertexes_cases] at hv
  by_cases hs : L.is_inside s <;> by_cases he : L.is_inside e
  · rw [if_pos hs, if_pos he] at hv
    have hve : v = e := by simpa using hv
    subst hve
    exact ⟨he, Or.inl rfl⟩
  · rw [if_pos hs, if_neg he] at hv
    cases hI : L.intersection (Line.mk s e) with
    | none => rw [hI] at hv; simp at hv
    | some p =>
        rw [hI] at hv
        have hvp : v = p := by simpa using hv
        subst hvp
        exact ⟨(is_inside_iff _ _).2 (le_of_eq (intersection_cross_self hI).symm),
          Or.inr rfl⟩
  · rw [if_neg hs, if_pos he] at hv
    cases hI : L.intersection (Line.mk s e) with
    | none =>
        rw [hI] at hv
        have hve : v = e := by simpa using hv
        subst hve
        exact ⟨he, Or.inl rfl⟩
    | some p =>
        rw [hI] at hv
        rcases (by simpa using hv : v = p ∨ v = e) with hvp | hve
        · subst hvp
          exact ⟨(is_inside_iff _ _).2 (le_of_eq (intersection_cross_self hI).symm),
            Or.inr rfl⟩
        · subst hve
          exact ⟨he, Or.inl rfl⟩
  · rw [if_neg hs, if_neg he] at hv
    simp at hv

theorem mem_clip_pass {L : Line} {cur : List Point} {v : Point}
    (hv : v ∈ SutherlandHodgman.clip_pass L cur) :
    L.is_inside v = true ∧
      (v ∈ cur ∨
        ∃ u s t, s ∈ cur ∧ t ∈ cur ∧ 0 ≤ u ∧ u ≤ 1 ∧ v = convexComb u s t) := by
  rw [clip_pass_eq_flatMap, List.mem_flatMap] at hv
  obtain ⟨j, hj, hmem⟩ := hv
  rw [List.mem_range] at hj
  have hlen : 0 < cur.length := Nat.lt_of_le_of_lt (Nat.zero_le _) hj
  have hs : cur.getD j originPoint ∈ cur := by
    rw [List.getD_eq_getElem _ _ hj]
    exact List.getElem_mem _
  have he : cur.getD ((j + 1) % cur.length) originPoint ∈ cur := by
    have hmod : (j + 1) % cur.length < cur.length := Nat.mod_lt _ hlen
    rw [List.getD_eq_getElem _ _ hmod]
    exact List.getElem_mem _
  obtain ⟨hin, hcase⟩ := mem_calculate_vertexes hmem
  refine ⟨hin, ?_⟩
  rcases hcase with rfl | hI
  · exact Or.inl he
  · obtain ⟨u, hu0, hu1, hveq⟩ := intersection_some_convex hI
    exact Or.inr ⟨u, _, _, hs, he, hu0, hu1, hveq⟩

theorem clip_pass_inside (L : Line) (cur : List Point) :
    ∀ v ∈ SutherlandHodgman.clip_pass L cur, L.is_inside v = true :=
  fun _ hv => (mem_clip_pass hv).1

theorem clip_pass_preserve {L' : Line} (L : Line) {cur : List Point}
    (h : ∀ w ∈ cur, L'.is_inside w = true) :
    ∀ v ∈ SutherlandHodgman.clip_pass L cur, L'.is_inside v = true := by
  intro v hv
  rcases (mem_clip_pass hv).2 with hmem | ⟨u, s, t, hst, ht, hu0, hu1, rfl⟩
  · exact h v hmem
  · rw [is_inside_iff, cross_product_convexComb]
    have hcs := (is_inside_iff L' s).1 (h s hst)
    have hct := (is_inside_iff L' t).1 (h t ht)
    have h1 : 0 ≤ (1 - u) * L'.cross_product s := mul_nonneg (by linarith) hcs
    have h2 : 0 ≤ u * L'.cross_product t := mul_nonneg hu0 hct
    linarith

theorem foldl_clip_pass_preserve (c : Polygon) (L' : Line) :
    ∀ (l : List Nat) (acc : List Point),
      (∀ w ∈ acc, L'.is_inside w = true) →
      ∀ v ∈ l.foldl (fun acc2 i => SutherlandHodgman.clip_pass (polygonEdge c i) acc2) acc,
        L'.is_inside v = true := by
  intro l
  induction l with
  | nil => intro acc hacc v hv; exact hacc v hv
  | cons i rest ih =>
      intro acc hacc v hv
      rw [List.foldl_cons] at hv
      exact ih _ (clip_pass_preserve _ hacc) v hv

theorem foldl_clip_pass_establish (c : Polygon) :
    ∀ (l : List Nat) (i : Nat), i ∈ l →
      ∀ (acc : List Point) (v : Point),
        v ∈ l.foldl (fun acc2 k => SutherlandHodgman.clip_pass (polygonEdge c k) acc2) acc →
        (polygonEdge c i).is_inside v = true := by
  intro l
  induction l with
  | nil => intro i hi; cases hi
  | cons j rest ih =>
      intro i hi acc v hv
      rw [List.foldl_cons] at hv
      rcases List.mem_cons.1 hi with rfl | hi2
      · exact foldl_clip_pass_preserve c _ rest _ (clip_pass_inside _ acc) v hv
      · exact ih i hi2 _ v hv

/-- C2: classifying `start` and `end` against a directed clip line and
deriving output vertices yields `[end]` when both are inside; the singleton
intersection when Inside→Outside and the intersection exists, nothing when it
does not; the intersection followed by `end` when Outside→Inside, `end` alone
when the intersection does not exist; and nothing when both are outside. -/
theorem c2_edge_rule (L : Line) (s e : Point) :
    (PointPositions.mk (PointPosition.is_inside s L)
        (PointPosition.is_inside e L)).calculate_vertexes L =
      if L.is_inside s then
        if L.is_inside e then [e]
        else
          match L.intersection (Line.mk s e) with
          | some p => [p]
          | none => []
      else
        if L.is_inside e then
          (match L.intersection (Line.mk s e) with
            | some p => [p]
            | none => []) ++ [e]
        else [] :=
  calculate_vertexes_cases L s e

/-- C3: whenever `clip_polygon` returns a polygon, every vertex of it
satisfies `is_inside` (cross product ≥ 0) for every directed edge of the
clipping polygon. -/
theorem c3_containment (clipping_polygon input_polygon res : Polygon)
    (hres : SutherlandHodgman.clip_polygon clipping_polygon input_polygon = some res)
    {v : Point} (hv : v ∈ res.vertexes)
    {i : Nat} (hi : i < clipping_polygon.vertexes.length) :
    (polygonEdge clipping_polygon i).is_inside v = true := by
  simp only [SutherlandHodgman.clip_polygon] at hres
  split at hres
  · exact absurd hres (by simp)
  · obtain rfl : Polygon.mk _ = res := by simpa using hres
    replace hv : v ∈ SutherlandHodgman.remove_duplicated_points
        (SutherlandHodgman.clip_passes clipping_polygon input_polygon.vertexes) := hv
    rw [remove_duplicated_points_eq_destutter] at hv
    have hv2 := (List.destutter_sublist _ _).subset hv
    exact foldl_clip_pass_establish clipping_polygon _ i (List.mem_range.2 hi) _ v hv2

theorem c3_witness :
    (polygonEdge mainSquare 1).is_inside (Point.mk 200 175) = true :=
  c3_containment mainSquare mainTriangle
    (Polygon.mk [Point.mk 150 200, Point.mk 200 200, Point.mk 200 175,
      Point.mk 150 (325 / 2)])
    (by decide) (by decide) (by decide)

/-- C4: whenever the determinant `a1*b2 - a2*b1` is exactly zero,
`Line::intersection` returns `none`; parallel non-collinear segments and two
identical overlapping segments are instances (see the witness). -/
theorem c4_zero_det_none (self other : Line)
    (h : Line.determinant self other = 0) :
    self.intersection other = none := by
  simp only [Line.intersection]
  rw [if_pos (by simpa [Line.determinant] using h)]

theorem c4_witness :
    Line.determinant (Line.mk (Point.mk 0 0) (Point.mk 1 0))
        (Line.mk (Point.mk 0 1) (Point.mk 1 1)) = 0 ∧
      (Line.mk (Point.mk 0 0) (Point.mk 1 0)).intersection
        (Line.mk (Point.mk 0 1) (Point.mk 1 1)) = none ∧
      Line.determinant (Line.mk (Point.mk 0 0) (Point.mk 1 1))
        (Line.mk (Point.mk 0 0) (Point.mk 1 1)) = 0 ∧
      (Line.mk (Point.mk 0 0) (Point.mk 1 1)).intersection
        (Line.mk (Point.mk 0 0) (Point.mk 1 1)) = none :=
  ⟨by decide, c4_zero_det_none _ _ (by decide), by decide,
    c4_zero_det_none _ _ (by decide)⟩

/-- C5: with a non-zero determinant, `Line::intersection` returns the solved
point of the 2x2 system exactly when that point lies in both segments'
bounding boxes (inclusive on both axes), and `none` otherwise. -/
theorem c5_nonzero_det (self other : Line)
    (hdet : Line.determinant self other ≠ 0) :
    self.intersection other =
      (let a1 := self.end_.y - self.start.y
       let b1 := self.start.x - self.end_.x
       let c1 := a1 * self.start.x + b1 * self.start.y
       let a2 := other.end_.y - other.start.y
       let b2 := other.start.x - other.end_.x
       let c2 := a2 * other.start.x + b2 * other.start.y
       let x := (b2 * c1 - b1 * c2) / Line.determinant self other
       let y := (a1 * c2 - a2 * c1) / Line.determinant self other
       if min self.start.x self.end_.x ≤ x ∧ x ≤ max self.start.x self.end_.x ∧
           min self.start.y self.end_.y ≤ y ∧ y ≤ max self.start.y self.end_.y ∧
           min other.start.x other.end_.x ≤ x ∧ x ≤ max other.start.x other.end_.x ∧
           min other.start.y other.end_.y ≤ y ∧ y ≤ max other.start.y other.end_.y then
         some (Point.mk x y)
       else none) := by
  simp only [Line.intersection, Line.determinant]
  rw [if_neg (by simpa [Line.determinant] using hdet)]

theorem c5_witness :
    Line.determinant (Line.mk (Point.mk 0 0) (Point.mk 2 0))
        (Line.mk (Point.mk 1 (-1)) (Point.mk 1 1)) ≠ 0 ∧
      (Line.mk (Point.mk 0 0) (Point.mk 2 0)).intersection
        (Line.mk (Point.mk 1 (-1)) (Point.mk 1 1)) = some (Point.mk 1 0) :=
  ⟨by decide, (c5_nonzero_det _ _ (by decide)).trans (by decide)⟩

/-- C6: `clip_polygon` returns `none` exactly when the working vertex list is
empty after all clip-edge passes, and a returned polygon is never built from
an empty vertex list. -/
theorem c6_none_iff_empty (clipping_polygon input_polygon : Polygon) :
    (SutherlandHodgman.clip_polygon clipping_polygon input_polygon = none ↔
      SutherlandHodgman.clip_passes clipping_polygon input_polygon.vertexes = []) ∧
    ∀ res, SutherlandHodgman.clip_polygon clipping_polygon input_polygon = some res →
      res.vertexes ≠ [] := by
  constructor
  · simp only [SutherlandHodgman.clip_polygon]
    rcases hout : SutherlandHodgman.clip_passes clipping_polygon input_polygon.vertexes
      with _ | ⟨a, rest⟩ <;> simp
  · intro res hres
    simp only [SutherlandHodgman.clip_polygon] at hres
    split at hres
    · exact absurd hres (by simp)
    · rename_i hne
      obtain rfl : Polygon.mk _ = res := by simpa using hres
      show SutherlandHodgman.remove_duplicated_points _ ≠ []
      rw [remove_duplicated_points_eq_destutter, Ne, List.destutter_eq_nil]
      simpa [List.isEmpty_iff] using hne

theorem c6_witness :
    (SutherlandHodgman.clip_polygon mainSquare mainTriangle = none ↔
      SutherlandHodgman.clip_passes mainSquare mainTriangle.vertexes = []) ∧
    (Polygon.mk [Point.mk 150 200, Point.mk 200 200, Point.mk 200 175,
      Point.mk 150 (325 / 2)]).vertexes ≠ [] :=
  ⟨(c6_none_iff_empty mainSquare mainTriangle).1,
    (c6_none_iff_empty mainSquare mainTriangle).2 _ (by decide)⟩

/-- C7: `remove_duplicated_points` drops exactly the points equal to the
immediately preceding kept point: its output has no two consecutive equal
points (so neither has any returned polygon), it only removes points, and a
list with no consecutive duplicates — a first vertex equal to the last
included — is returned untouched. -/
theorem c7_remove_duplicates :
    (∀ l : List Point,
      List.Chain' (· ≠ ·) (SutherlandHodgman.remove_duplicated_points l)) ∧
    (∀ l : List Point, List.Sublist (SutherlandHodgman.remove_duplicated_points l) l) ∧
    (∀ l : List Point, List.Chain' (· ≠ ·) l →
      SutherlandHodgman.remove_duplicated_points l = l) ∧
    (∀ clipping_polygon input_polygon res : Polygon,
      SutherlandHodgman.clip_polygon clipping_polygon input_polygon = some res →
      List.Chain' (· ≠ ·) res.vertexes) := by
  refine ⟨?_, ?_, ?_, ?_⟩
  · intro l
    rw [remove_duplicated_points_eq_destutter]
    exact List.destutter_is_chain' _ _
  · intro l
    rw [remove_duplicated_points_eq_destutter]
    exact List.destutter_sublist _ _
  · intro l h
    rw [remove_duplicated_points_eq_destutter]
    exact List.destutter_of_chain' _ _ h
  · intro clipping_polygon input_polygon res hres
    simp only [SutherlandHodgman.clip_polygon] at hres
    split at hres
    · exact absurd hres (by simp)
    · obtain rfl : Polygon.mk _ = res := by simpa using hres
      show List.Chain' (· ≠ ·) (SutherlandHodgman.remove_duplicated_points _)
      rw [remove_duplicated_points_eq_destutter]
      exact List.destutter_is_chain' _ _

theorem c7_witness :
    SutherlandHodgman.remove_duplicated_points
        [Point.mk 1 1, Point.mk 2 2, Point.mk 1 1] =
      [Point.mk 1 1, Point.mk 2 2, Point.mk 1 1] ∧
    List.Chain' (· ≠ ·) (Polygon.mk [Point.mk 150 200, Point.mk 200 200,
      Point.mk 200 175, Point.mk 150 (325 / 2)]).vertexes :=
  ⟨c7_remove_duplicates.2.2.1 _
      (by simp [List.chain'_cons, Point.mk.injEq]),
    c7_remove_duplicates.2.2.2 mainSquare mainTriangle _ (by decide)⟩

/-- C8: the literal disjoint example — unit square at the origin clipped
against the far-away triangle — returns `none`. -/
theorem c8_disjoint_none :
    SutherlandHodgman.clip_polygon
        (Polygon.mk [Point.mk 10 10, Point.mk 11 10, Point.mk 10 11])
        (Polygon.mk [Point.mk 0 0, Point.mk 1 0, Point.mk 1 1, Point.mk 0 1]) =
      none := by
  decide

/-- C9: the calculator façade holding the Sutherland-Hodgman strategy forwards
both polygon arguments positionally unchanged and adds no behavior. -/
theorem c9_calculator_delegates (a b : Polygon) :
    (PolygonClippingCalculator.mk sutherlandHodgmanStrategy).clip_polygon a b =
      SutherlandHodgman.clip_polygon a b :=
  rfl

/-- C10: with a non-empty clipping polygon and an empty input polygon, every
pass over the empty working list runs zero iterations and contributes
nothing, and `clip_polygon` returns `none`. -/
theorem c10_empty_input_polygon (clipping_polygon : Polygon)
    (hne : clipping_polygon.vertexes ≠ []) :
    (∀ L : Line, SutherlandHodgman.clip_pass L [] = []) ∧
    SutherlandHodgman.clip_polygon clipping_polygon (Polygon.mk []) = none := by
  refine ⟨fun L => rfl, ?_⟩
  have hpasses : SutherlandHodgman.clip_passes clipping_polygon [] = [] := by
    unfold SutherlandHodgman.clip_passes
    generalize List.range clipping_polygon.vertexes.length = l
    induction l with
    | nil => rfl
    | cons i rest ih =>
        rw [List.foldl_cons]
        exact ih
  simp [SutherlandHodgman.clip_polygon, hpasses]

theorem c10_witness :
    SutherlandHodgman.clip_polygon mainTriangle (Polygon.mk []) = none :=
  (c10_empty_input_polygon mainTriangle (by decide)).2

/-- C1 (counterexample): with the roles exactly as the claim states them —
clipping polygon the triangle `(100,150),(200,250),(300,200)`, input polygon
the square — `clip_polygon` returns `none`, not a non-empty polygon: the
triangle's vertices wind clockwise, so the `cross ≥ 0` test keeps the
half-planes opposite its interior and every pass discards everything. -/
theorem c1_counterexample :
    SutherlandHodgman.clip_polygon mainTriangle mainSquare = none := by
  decide

/-- C1 (amended): in the role assignment the program actually runs for this
scenario — the square as clipping polygon, the triangle as input —
`clip_polygon` returns the non-empty polygon
`[(150,200),(200,200),(200,175),(150,162.5)]`; each of its vertices
satisfies `is_inside` for every directed edge of the square, and each is a
triangle vertex or a point `Line::intersection` returns for a square edge
and a segment between working-list points. -/
theorem c1_partial_overlap :
    SutherlandHodgman.clip_polygon mainSquare mainTriangle =
      some (Polygon.mk [Point.mk 150 200, Point.mk 200 200, Point.mk 200 175,
        Point.mk 150 (325 / 2)]) ∧
    (∀ v ∈ [Point.mk 150 200, Point.mk 200 200, Point.mk 200 175,
        Point.mk 150 (325 / 2)],
      ∀ i < mainSquare.vertexes.length,
        (polygonEdge mainSquare i).is_inside v = true) ∧
    (∀ v ∈ [Point.mk 150 200, Point.mk 200 200, Point.mk 200 175,
        Point.mk 150 (325 / 2)],
      v ∈ mainTriangle.vertexes ∨
        ∃ i s t, i < mainSquare.vertexes.length ∧
          (polygonEdge mainSquare i).intersection (Line.mk s t) = some v) := by
  refine ⟨by decide, by decide, ?_⟩
  intro v hv
  fin_cases hv
  · exact Or.inr ⟨2, Point.mk 100 150, Point.mk 200 250, by decide, by decide⟩
  · exact Or.inr ⟨2, Point.mk 200 250, Point.mk 200 175, by decide, by decide⟩
  · exact Or.inr ⟨1, Point.mk 300 200, Point.mk 100 150, by decide, by decide⟩
  · exact Or.inr ⟨3, Point.mk 200 175, Point.mk 100 150, by decide, by decide⟩

theorem c1_witness :
    (polygonEdge mainSquare 0).is_inside (Point.mk 150 200) = true :=
  c1_partial_overlap.2.1 (Point.mk 150 200) (by decide) 0 (by decide)
